import Mathlib

/-!
Shallow embedding of `egarch_ibov.py` (EGARCH Monte Carlo simulation of
IBOVESPA returns).  Python floats are modelled as real numbers; the global
NumPy random generator is modelled as the pre-drawn sequence of its
standard-normal outputs, indexed by draw order (`rng : ℕ → ℝ`); fallible
operations (dict/Series key lookup, model fitting that may raise) are
modelled with `Option`.
-/

/-- The named EGARCH(2,2) coefficients read from `model_fit.params` in
`monte_carlo_simulation` (source lines 43–49). -/
structure Params where
  mu : ℝ
  omega : ℝ
  alpha1 : ℝ
  alpha2 : ℝ
  beta1 : ℝ
  beta2 : ℝ

/-- Source line 69–70: the EGARCH log-variance update
`log_sigma2 = omega + alpha1*(|z| - sqrt(2/pi)) + alpha2*(|z| - sqrt(2/pi))
+ (beta1 + beta2)*log_sigma2`. -/
noncomputable def updateLogSigma2 (p : Params) (z log_sigma2 : ℝ) : ℝ :=
  p.omega + p.alpha1 * (|z| - Real.sqrt (2 / Real.pi))
    + p.alpha2 * (|z| - Real.sqrt (2 / Real.pi))
    + (p.beta1 + p.beta2) * log_sigma2

/-- Source line 73: `sigma = np.sqrt(np.exp(log_sigma2))`. -/
noncomputable def sigmaOf (log_sigma2 : ℝ) : ℝ :=
  Real.sqrt (Real.exp log_sigma2)

/-- One iteration of the inner loop (source lines 64–77), given the current
`log_sigma2` and the shock `z` drawn at this step: returns the updated
`log_sigma2` and the log-return stored into the result matrix. -/
noncomputable def simStep (p : Params) (log_sigma2 z : ℝ) : ℝ × ℝ :=
  let ls := updateLogSigma2 p z log_sigma2
  let sigma := sigmaOf ls
  (ls, p.mu - 0.5 * sigma ^ 2 + sigma * z)

/-- The list of log-returns produced by one path of the inner loop, starting
from log-variance `log_sigma2`, consuming the shocks in order. -/
noncomputable def simPathAux (p : Params) (log_sigma2 : ℝ) : List ℝ → List ℝ
  | [] => []
  | z :: zs => (simStep p log_sigma2 z).2 :: simPathAux p (simStep p log_sigma2 z).1 zs

/-- The log-variance state after consuming a list of shocks (the value of the
`log_sigma2` variable at the end of the corresponding iterations of the inner
loop). -/
noncomputable def logSigma2After (p : Params) (log_sigma2 : ℝ) : List ℝ → ℝ
  | [] => log_sigma2
  | z :: zs => logSigma2After p (simStep p log_sigma2 z).1 zs

/-- The shocks consumed by path `sim`: the source draws one standard normal
per `(sim, t)` pair, in row-major order (source line 66), so path `sim`
consumes draws `sim*T .. sim*T + T - 1` of the generator's output stream. -/
def pathShocks (rng : ℕ → ℝ) (forecast_period sim : ℕ) : List ℝ :=
  (List.range forecast_period).map fun t => rng (sim * forecast_period + t)

/-- Source lines 52–79: `monte_carlo_simulation`, with the fitted parameters
already extracted, `last_vol` the last conditional volatility (line 55) and
`rng` the stream of standard-normal draws.  Returns the matrix of simulated
log-returns as a list of `n_simulations` rows of length `forecast_period`;
row `sim` is path `sim`, initialized at `log_sigma2 = log(last_vol^2)`
(line 62). -/
noncomputable def monte_carlo_simulation (p : Params) (last_vol : ℝ) (rng : ℕ → ℝ)
    (n_simulations forecast_period : ℕ) : List (List ℝ) :=
  (List.range n_simulations).map fun sim =>
    simPathAux p (Real.log (last_vol ^ 2)) (pathShocks rng forecast_period sim)

/-- Default value of the `n_simulations` keyword argument (source line 41). -/
def default_n_simulations : ℕ := 10000

/-- Default value of the `forecast_period` keyword argument (source line 41). -/
def default_forecast_period : ℕ := 21

theorem simPathAux_length (p : Params) (l : ℝ) (zs : List ℝ) :
    (simPathAux p l zs).length = zs.length := by
  induction zs generalizing l with
  | nil => rfl
  | cons z zs ih => simp [simPathAux, ih]

theorem pathShocks_length (rng : ℕ → ℝ) (T s : ℕ) :
    (pathShocks rng T s).length = T := by
  simp [pathShocks]

/-- C1: each path initializes `log_sigma2 = ln(last_vol^2)`; each step updates
it to `omega + Σ_i alpha_i*(|z| - sqrt(2/pi)) + (Σ_j beta_j)*previous`, every
alpha term using the same current shock `z` and every beta term the same
single previous `log_sigma2`; for one step with `z = 0` the log-variance is
`omega + alpha_sum*(0 - sqrt(2/pi)) + beta_sum*log(last_vol^2)`. -/
theorem egarch_recursion_correct (p : Params) (last_vol z prev : ℝ) :
    (logSigma2After p (Real.log (last_vol ^ 2)) [] = Real.log (last_vol ^ 2))
    ∧ (∀ zs : List ℝ, logSigma2After p prev (z :: zs)
        = logSigma2After p (updateLogSigma2 p z prev) zs)
    ∧ (updateLogSigma2 p z prev
        = p.omega
          + (p.alpha1 * (|z| - Real.sqrt (2 / Real.pi))
             + p.alpha2 * (|z| - Real.sqrt (2 / Real.pi)))
          + (p.beta1 + p.beta2) * prev)
    ∧ (logSigma2After p (Real.log (last_vol ^ 2)) [0]
        = p.omega + (p.alpha1 + p.alpha2) * (0 - Real.sqrt (2 / Real.pi))
          + (p.beta1 + p.beta2) * Real.log (last_vol ^ 2)) := by
  refine ⟨rfl, fun zs => rfl, by unfold updateLogSigma2; ring, ?_⟩
  simp only [logSigma2After, simStep, updateLogSigma2, abs_zero]
  ring

/-- C2: at each step `sigma = sqrt(exp(log_sigma2))` and the stored return is
`r = mu - 0.5*sigma^2 + sigma*z` with the same shock `z` used in that step's
variance update; for `z = 0` the return is exactly `mu - 0.5*sigma^2`. -/
theorem return_drift_adjustment (p : Params) (log_sigma2 z : ℝ) (zs : List ℝ) :
    (sigmaOf log_sigma2 = Real.sqrt (Real.exp log_sigma2))
    ∧ (simPathAux p log_sigma2 (z :: zs)
        = (p.mu - 0.5 * sigmaOf (updateLogSigma2 p z log_sigma2) ^ 2
            + sigmaOf (updateLogSigma2 p z log_sigma2) * z)
          :: simPathAux p (updateLogSigma2 p z log_sigma2) zs)
    ∧ (simStep p log_sigma2 0).2
        = p.mu - 0.5 * sigmaOf (updateLogSigma2 p 0 log_sigma2) ^ 2 := by
  refine ⟨rfl, rfl, ?_⟩
  simp [simStep]

/-- C3: the returned matrix has exactly `n_simulations` rows and every row has
exactly `forecast_period` entries, each produced by the simulation loop. -/
theorem simulation_shape (p : Params) (last_vol : ℝ) (rng : ℕ → ℝ) (N T : ℕ) :
    (monte_carlo_simulation p last_vol rng N T).length = N
    ∧ ∀ row ∈ monte_carlo_simulation p last_vol rng N T, row.length = T := by
  constructor
  · simp [monte_carlo_simulation]
  · intro row hrow
    simp only [monte_carlo_simulation, List.mem_map, List.mem_range] at hrow
    obtain ⟨s, -, rfl⟩ := hrow
    rw [simPathAux_length, pathShocks_length]

/-- C4: the simulation is deterministic in its inputs and entropy: two
invocations with the same parameters, last volatility, sizes, and the same
sequence of normal draws (on the `n_simulations * forecast_period` draws that
are consumed) return identical matrices. -/
theorem simulation_deterministic (p : Params) (last_vol : ℝ) (N T : ℕ)
    (rng1 rng2 : ℕ → ℝ) (h : ∀ i < N * T, rng1 i = rng2 i) :
    monte_carlo_simulation p last_vol rng1 N T
      = monte_carlo_simulation p last_vol rng2 N T := by
  unfold monte_carlo_simulation
  apply List.map_congr_left
  intro s hs
  rw [List.mem_range] at hs
  have hsh : pathShocks rng1 T s = pathShocks rng2 T s := by
    unfold pathShocks
    apply List.map_congr_left
    intro t ht
    rw [List.mem_range] at ht
    apply h
    calc s * T + t < s * T + T := by omega
      _ = (s + 1) * T := by ring
      _ ≤ N * T := Nat.mul_le_mul_right T hs
  rw [hsh]

def paramsZero : Params := ⟨0, 0, 0, 0, 0, 0⟩

/-- Witness for C4 at a concrete input: two draw streams that agree on the
single consumed draw give the same result. -/
theorem simulation_deterministic_witness :
    monte_carlo_simulation paramsZero 0 (fun _ => 0) 1 1
      = monte_carlo_simulation paramsZero 0 (fun i => if i < 1 then 0 else 1) 1 1 :=
  simulation_deterministic paramsZero 0 1 1 _ _ (fun i hi => by
    have h1 : i < 1 := by omega
    simp [h1])

theorem simulation_row (p : Params) (last_vol : ℝ) (rng : ℕ → ℝ) (N T s : ℕ)
    (hs : s < N) :
    (monte_carlo_simulation p last_vol rng N T).getD s []
      = simPathAux p (Real.log (last_vol ^ 2)) (pathShocks rng T s) := by
  unfold monte_carlo_simulation
  have hlen : s < ((List.range N).map fun sim =>
      simPathAux p (Real.log (last_vol ^ 2)) (pathShocks rng T sim)).length := by
    simp [hs]
  rw [List.getD_eq_getElem _ _ hlen, List.getElem_map, List.getElem_range]

/-- C5: row `s` of the result is a function only of the parameters, the last
volatility and the draws consumed by path `s` itself (draws `s*T .. s*T+T-1`):
it equals the path recursion on exactly those draws, and any two draw streams
agreeing on them give the same row `s`. -/
theorem path_independence (p : Params) (last_vol : ℝ) (N T s : ℕ) (hs : s < N)
    (rng1 rng2 : ℕ → ℝ) (h : ∀ t < T, rng1 (s * T + t) = rng2 (s * T + t)) :
    (monte_carlo_simulation p last_vol rng1 N T).getD s []
      = simPathAux p (Real.log (last_vol ^ 2)) (pathShocks rng1 T s)
    ∧ (monte_carlo_simulation p last_vol rng1 N T).getD s []
      = (monte_carlo_simulation p last_vol rng2 N T).getD s [] := by
  have hsh : pathShocks rng1 T s = pathShocks rng2 T s := by
    unfold pathShocks
    apply List.map_congr_left
    intro t ht
    rw [List.mem_range] at ht
    exact h t ht
  refine ⟨simulation_row p last_vol rng1 N T s hs, ?_⟩
  rw [simulation_row p last_vol rng1 N T s hs,
    simulation_row p last_vol rng2 N T s hs, hsh]

/-- Witness for C5 at a concrete input: path 0 of a 1-by-1 simulation, with a
second draw stream agreeing on draw 0. -/
theorem path_independence_witness :
    (monte_carlo_simulation paramsZero 0 (fun _ => 0) 1 1).getD 0 []
      = simPathAux paramsZero (Real.log ((0:ℝ) ^ 2)) (pathShocks (fun _ => 0) 1 0)
    ∧ (monte_carlo_simulation paramsZero 0 (fun _ => 0) 1 1).getD 0 []
      = (monte_carlo_simulation paramsZero 0 (fun i => if i < 1 then 0 else 1) 1 1).getD 0 [] :=
  path_independence paramsZero 0 1 1 0 (by omega) _ _ (fun t ht => by
    have h1 : t = 0 := by omega
    subst h1
    norm_num)

/-- C9: the spec preconditions `n_simulations >= 1`, `forecast_period >= 1`
are not enforced: with `n_simulations = 0` the result is the empty 0-by-T
matrix, and with `forecast_period = 0` it has `n_simulations` rows, each
empty; in both cases the loops run zero iterations and no error is raised
(the embedded function is total and does not return a failure value). -/
theorem degenerate_sizes (p : Params) (last_vol : ℝ) (rng : ℕ → ℝ) (N T : ℕ) :
    (monte_carlo_simulation p last_vol rng 0 T = [])
    ∧ ((monte_carlo_simulation p last_vol rng N 0).length = N)
    ∧ (∀ row ∈ monte_carlo_simulation p last_vol rng N 0, row = []) := by
  refine ⟨rfl, by simp [monte_carlo_simulation], ?_⟩
  intro row hrow
  simp only [monte_carlo_simulation, List.mem_map, List.mem_range] at hrow
  obtain ⟨s, -, rfl⟩ := hrow
  simp [pathShocks, simPathAux]

/-- Source lines 43–49 followed by the simulation body: `monte_carlo_simulation`
as it actually starts, reading the named coefficients from the fitted
parameter mapping in source order (`params['mu']`, `params['omega']`,
`params['alpha[1]']`, `params['alpha[2]']`, `params['beta[1]']`,
`params['beta[2]']`).  A missing key raises `KeyError` in Python, modelled as
`none`; the simulation loop runs only after all six lookups succeed. -/
noncomputable def monte_carlo_simulation_from_fit (fit_params : List (String × ℝ))
    (last_vol : ℝ) (rng : ℕ → ℝ) (n_simulations forecast_period : ℕ) :
    Option (List (List ℝ)) :=
  (fit_params.lookup "mu").bind fun mu =>
  (fit_params.lookup "omega").bind fun omega =>
  (fit_params.lookup "alpha[1]").bind fun alpha1 =>
  (fit_params.lookup "alpha[2]").bind fun alpha2 =>
  (fit_params.lookup "beta[1]").bind fun beta1 =>
  (fit_params.lookup "beta[2]").bind fun beta2 =>
  some (monte_carlo_simulation ⟨mu, omega, alpha1, alpha2, beta1, beta2⟩
    last_vol rng n_simulations forecast_period)

/-- C8: the simulation hard-codes order p = q = 2: whenever the fitted
parameter mapping lacks any of the keys `alpha[1]`, `alpha[2]`, `beta[1]`,
`beta[2]` (as happens for every order with p < 2 or q < 2, all selectable by
`find_best_model` from its grid), the key lookup fails and no result matrix
is produced. -/
theorem missing_lag_key_fails (fit_params : List (String × ℝ)) (last_vol : ℝ)
    (rng : ℕ → ℝ) (N T : ℕ)
    (h : fit_params.lookup "alpha[1]" = none ∨ fit_params.lookup "alpha[2]" = none
       ∨ fit_params.lookup "beta[1]" = none ∨ fit_params.lookup "beta[2]" = none) :
    monte_carlo_simulation_from_fit fit_params last_vol rng N T = none := by
  have bn : ∀ {β : Type} (o : Option β) (f : β → Option (List (List ℝ))),
      (∀ x, f x = none) → o.bind f = none := by
    intro β o f hf
    cases o with
    | none => rfl
    | some x => exact hf x
  unfold monte_carlo_simulation_from_fit
  rcases h with h | h | h | h
  · exact bn _ _ fun mu => bn _ _ fun om => by rw [h]; rfl
  · exact bn _ _ fun mu => bn _ _ fun om => bn _ _ fun a1 => by rw [h]; rfl
  · exact bn _ _ fun mu => bn _ _ fun om => bn _ _ fun a1 => bn _ _ fun a2 => by
      rw [h]; rfl
  · exact bn _ _ fun mu => bn _ _ fun om => bn _ _ fun a1 => bn _ _ fun a2 =>
      bn _ _ fun b1 => by rw [h]; rfl

/-- The parameter mapping of a fitted EGARCH(1,1) model: it has `alpha[1]` and
`beta[1]` but neither `alpha[2]` nor `beta[2]`. -/
noncomputable def params_egarch11 : List (String × ℝ) :=
  [("mu", 0.0005), ("omega", -0.1), ("alpha[1]", 0.1), ("beta[1]", 0.85)]

/-- Witness for C8 at a concrete input: simulating from an EGARCH(1,1) fit
fails with no result. -/
theorem missing_lag_key_fails_witness :
    monte_carlo_simulation_from_fit params_egarch11 0.015 (fun _ => 0) 2 3 = none :=
  missing_lag_key_fails params_egarch11 0.015 (fun _ => 0) 2 3
    (Or.inr (Or.inl rfl))

/-- The candidate (p, q) orders tried by `find_best_model` (source lines
28–29): `for p in range(1, 3): for q in range(1, 3)`, i.e. the grid
{1,2} x {1,2} in row-major order. -/
def candidate_orders : List (ℕ × ℕ) :=
  (List.range' 1 2).flatMap fun p => (List.range' 1 2).map fun q => (p, q)

/-- One trial of the grid search (source lines 30–37): `fit p q` abstracts
the outcome of `arch_model(returns, p, q, ...).fit(...)`, `none` when the
library call raises (swallowed by the bare `except: continue`), `some aic`
otherwise.  The accumulator is the pair `(best_aic, best_order)`;
`best_aic = none` stands for the initial `np.inf`, which every successful
fit's AIC beats. -/
def fbmStep {α : Type} [LinearOrder α] (fit : ℕ → ℕ → Option α)
    (acc : Option α × Option (ℕ × ℕ)) (pq : ℕ × ℕ) :
    Option α × Option (ℕ × ℕ) :=
  match fit pq.1 pq.2 with
  | none => acc
  | some aic =>
    match acc.1 with
    | none => (some aic, some pq)
    | some best => if aic < best then (some aic, some pq) else acc

/-- Source lines 23–39: `find_best_model`, abstracted over the fitting
oracle; returns `best_order`. -/
def find_best_model {α : Type} [LinearOrder α] (fit : ℕ → ℕ → Option α) :
    Option (ℕ × ℕ) :=
  (candidate_orders.foldl (fbmStep fit) (none, none)).2

/-- Source lines 89–90: `best_order = find_best_model(returns)` followed by
the destructuring `p, q = best_order`, which raises in Python when
`best_order` is `None`; modelled in the `Option` monad, `main` obtains a
model order exactly when `find_best_model` succeeded. -/
def main_model_order {α : Type} [LinearOrder α] (fit : ℕ → ℕ → Option α) :
    Option (ℕ × ℕ) :=
  match find_best_model fit with
  | none => none
  | some pq => some pq

theorem foldl_fbm_spec {α : Type} [LinearOrder α] (fit : ℕ → ℕ → Option α)
    (L : List (ℕ × ℕ)) :
    ((L.foldl (fbmStep fit) (none, none) = (none, none))
       ∧ ∀ o ∈ L, fit o.1 o.2 = none)
    ∨ (∃ o a l1 l2, L.foldl (fbmStep fit) (none, none) = (some a, some o)
        ∧ L = l1 ++ o :: l2 ∧ fit o.1 o.2 = some a
        ∧ (∀ o' ∈ l1, ∀ a', fit o'.1 o'.2 = some a' → a < a')
        ∧ (∀ o' ∈ l2, ∀ a', fit o'.1 o'.2 = some a' → a ≤ a')) := by
  induction L using List.reverseRecOn with
  | nil => exact Or.inl ⟨rfl, by simp⟩
  | append_singleton xs c ih =>
    rw [List.foldl_append, List.foldl_cons, List.foldl_nil]
    rcases ih with ⟨hR, hall⟩ | ⟨o, a, l1, l2, hR, hL, hfo, hbef, haft⟩
    · rw [hR]
      cases hfc : fit c.1 c.2 with
      | none =>
        refine Or.inl ⟨?_, ?_⟩
        · simp [fbmStep, hfc]
        · intro o ho
          rcases List.mem_append.mp ho with ho | ho
          · exact hall o ho
          · rw [List.mem_singleton.mp ho]; exact hfc
      | some a =>
        refine Or.inr ⟨c, a, xs, [], ?_, rfl, hfc, ?_, by simp⟩
        · simp [fbmStep, hfc]
        · intro o' ho' a' hfa'
          rw [hall o' ho'] at hfa'
          exact absurd hfa' (by simp)
    · rw [hR]
      cases hfc : fit c.1 c.2 with
      | none =>
        refine Or.inr ⟨o, a, l1, l2 ++ [c], ?_, by rw [hL]; simp, hfo, hbef, ?_⟩
        · simp [fbmStep, hfc]
        · intro o' ho' a' hfa'
          rcases List.mem_append.mp ho' with ho' | ho'
          · exact haft o' ho' a' hfa'
          · rw [List.mem_singleton.mp ho'] at hfa'
            rw [hfc] at hfa'
            exact absurd hfa' (by simp)
      | some b =>
        by_cases hlt : b < a
        · refine Or.inr ⟨c, b, xs, [], ?_, rfl, hfc, ?_, by simp⟩
          · simp [fbmStep, hfc, hlt]
          · intro o' ho' a' hfa'
            rw [hL] at ho'
            rcases List.mem_append.mp ho' with ho' | ho'
            · exact lt_trans hlt (hbef o' ho' a' hfa')
            · rcases List.mem_cons.mp ho' with ho' | ho'
              · rw [ho'] at hfa'
                rw [hfo] at hfa'
                rw [Option.some.injEq] at hfa'
                rw [← hfa']
                exact hlt
              · exact lt_of_lt_of_le hlt (haft o' ho' a' hfa')
        · refine Or.inr ⟨o, a, l1, l2 ++ [c], ?_, by rw [hL]; simp, hfo, hbef, ?_⟩
          · simp [fbmStep, hfc, hlt]
          · intro o' ho' a' hfa'
            rcases List.mem_append.mp ho' with ho' | ho'
            · exact haft o' ho' a' hfa'
            · rw [List.mem_singleton.mp ho'] at hfa'
              rw [hfc] at hfa'
              rw [Option.some.injEq] at hfa'
              rw [← hfa']
              exact le_of_not_lt hlt

/-- C10: `find_best_model` tries (p, q) over {1,2} x {1,2} in fixed row-major
order, skips every candidate whose fit raises, and returns the
first-encountered order achieving the strictly smallest AIC among successful
fits (every earlier successful candidate has strictly larger AIC, every later
one has AIC at least as large); it returns `None` exactly when every fit
raises, in which case the caller's unpacking of the result also yields no
model order. -/
theorem find_best_model_correct {α : Type} [LinearOrder α]
    (fit : ℕ → ℕ → Option α) :
    (candidate_orders = [(1,1), (1,2), (2,1), (2,2)])
    ∧ (find_best_model fit = none ↔ ∀ o ∈ candidate_orders, fit o.1 o.2 = none)
    ∧ (∀ pq, find_best_model fit = some pq →
        ∃ a l1 l2, candidate_orders = l1 ++ pq :: l2 ∧ fit pq.1 pq.2 = some a
          ∧ (∀ o' ∈ l1, ∀ a', fit o'.1 o'.2 = some a' → a < a')
          ∧ (∀ o' ∈ l2, ∀ a', fit o'.1 o'.2 = some a' → a ≤ a'))
    ∧ ((∀ o ∈ candidate_orders, fit o.1 o.2 = none) → main_model_order fit = none) := by
  have hspec := foldl_fbm_spec fit candidate_orders
  have hnone : find_best_model fit = none ↔
      ∀ o ∈ candidate_orders, fit o.1 o.2 = none := by
    constructor
    · intro hfind
      rcases hspec with ⟨-, hall⟩ | ⟨o, a, l1, l2, hR, -, -, -, -⟩
      · exact hall
      · unfold find_best_model at hfind
        rw [hR] at hfind
        exact absurd hfind (by simp)
    · intro hall
      rcases hspec with ⟨hR, -⟩ | ⟨o, a, l1, l2, hR, hL, hfo, -, -⟩
      · unfold find_best_model
        rw [hR]
      · exfalso
        have ho : o ∈ candidate_orders := by rw [hL]; simp
        rw [hall o ho] at hfo
        exact absurd hfo (by simp)
  refine ⟨by decide, hnone, ?_, ?_⟩
  · intro pq hfind
    rcases hspec with ⟨hR, -⟩ | ⟨o, a, l1, l2, hR, hL, hfo, hbef, haft⟩
    · unfold find_best_model at hfind
      rw [hR] at hfind
      exact absurd hfind (by simp)
    · unfold find_best_model at hfind
      rw [hR] at hfind
      rw [Option.some.injEq] at hfind
      subst hfind
      exact ⟨a, l1, l2, hL, hfo, hbef, haft⟩
  · intro hall
    unfold main_model_order
    rw [hnone.mpr hall]

/-- Witness for C10 at a concrete input: when every candidate fit raises, the
returned order is `None`. -/
theorem find_best_model_correct_witness :
    main_model_order (fun _ _ => (none : Option ℚ)) = none :=
  (find_best_model_correct (fun _ _ => (none : Option ℚ))).2.2.2 (fun o _ => rfl)

theorem sorted_getD_mono (ys : List ℝ) (hys : ys.Sorted (· ≤ ·)) {i j : ℕ}
    (hij : i ≤ j) (hj : j < ys.length) : ys.getD i 0 ≤ ys.getD j 0 := by
  have hi : i < ys.length := lt_of_le_of_lt hij hj
  rw [List.getD_eq_getElem ys 0 hi, List.getD_eq_getElem ys 0 hj]
  have := List.Sorted.rel_get_of_le hys
    (show (⟨i, hi⟩ : Fin ys.length) ≤ ⟨j, hj⟩ from hij)
  simpa using this

/-- Linear interpolation over a list at a real-valued virtual index `h`, as
performed by NumPy's default (`linear`) percentile method: the value at index
`⌊h⌋` plus the fractional part times the gap to the next entry (the successor
index clamped to the last entry). -/
noncomputable def interpAt (ys : List ℝ) (h : ℝ) : ℝ :=
  ys.getD ⌊h⌋₊ 0
    + (h - (⌊h⌋₊ : ℝ))
      * (ys.getD (min (⌊h⌋₊ + 1) (ys.length - 1)) 0 - ys.getD ⌊h⌋₊ 0)

/-- The behaviour of `np.percentile(a, q)` (default linear interpolation):
sort ascending and interpolate at virtual index `q/100 * (n-1)`. -/
noncomputable def np_percentile (xs : List ℝ) (q : ℝ) : ℝ :=
  interpAt (xs.insertionSort (· ≤ ·)) (q / 100 * ((xs.length : ℝ) - 1))

theorem interpAt_mono (ys : List ℝ) (hys : ys.Sorted (· ≤ ·)) (hne : ys ≠ [])
    {h1 h2 : ℝ} (h0 : 0 ≤ h1) (h12 : h1 ≤ h2) (hub : h2 ≤ (ys.length : ℝ) - 1) :
    interpAt ys h1 ≤ interpAt ys h2 := by
  have hn : 0 < ys.length := List.length_pos.mpr hne
  have hn1 : 1 ≤ ys.length := hn
  have h02 : 0 ≤ h2 := le_trans h0 h12
  have hi12 : ⌊h1⌋₊ ≤ ⌊h2⌋₊ := Nat.floor_mono h12
  have hcast : ((ys.length - 1 : ℕ) : ℝ) = (ys.length : ℝ) - 1 := by
    rw [Nat.cast_sub hn1, Nat.cast_one]
  rw [← hcast] at hub
  have hi2n : ⌊h2⌋₊ ≤ ys.length - 1 := by
    have := Nat.floor_mono hub
    rwa [Nat.floor_natCast] at this
  have hfloor1 : (⌊h1⌋₊ : ℝ) ≤ h1 := Nat.floor_le h0
  have hlt1 : h1 < ⌊h1⌋₊ + 1 := Nat.lt_floor_add_one h1
  have hfloor2 : (⌊h2⌋₊ : ℝ) ≤ h2 := Nat.floor_le h02
  rcases eq_or_lt_of_le hi12 with heq | hlt
  · unfold interpAt
    rw [← heq]
    have hj : min (⌊h1⌋₊ + 1) (ys.length - 1) < ys.length := by omega
    have hij : ⌊h1⌋₊ ≤ min (⌊h1⌋₊ + 1) (ys.length - 1) := by omega
    have hab := sorted_getD_mono ys hys hij hj
    nlinarith [mul_nonneg (sub_nonneg.mpr h12) (sub_nonneg.mpr hab)]
  · have hj1 : min (⌊h1⌋₊ + 1) (ys.length - 1) < ys.length := by omega
    have hi2lt : ⌊h2⌋₊ < ys.length := by omega
    have hj2 : min (⌊h2⌋₊ + 1) (ys.length - 1) < ys.length := by omega
    have h1j : ⌊h1⌋₊ ≤ min (⌊h1⌋₊ + 1) (ys.length - 1) := by omega
    have h2j : ⌊h2⌋₊ ≤ min (⌊h2⌋₊ + 1) (ys.length - 1) := by omega
    have hb1 := sorted_getD_mono ys hys h1j hj1
    have hb2 := sorted_getD_mono ys hys h2j hj2
    have hmid := sorted_getD_mono ys hys
      (show min (⌊h1⌋₊ + 1) (ys.length - 1) ≤ ⌊h2⌋₊ by omega) hi2lt
    unfold interpAt
    nlinarith [mul_nonneg (show (0:ℝ) ≤ 1 - (h1 - (⌊h1⌋₊ : ℝ)) by linarith)
        (sub_nonneg.mpr hb1),
      mul_nonneg (show (0:ℝ) ≤ h2 - (⌊h2⌋₊ : ℝ) by linarith)
        (sub_nonneg.mpr hb2)]

theorem np_percentile_ordered (xs : List ℝ) (hne : xs ≠ []) {q1 q2 : ℝ}
    (hq0 : 0 ≤ q1) (hq12 : q1 ≤ q2) (hq2 : q2 ≤ 100) :
    np_percentile xs q1 ≤ np_percentile xs q2 := by
  unfold np_percentile
  have hsorted : (xs.insertionSort (· ≤ ·)).Sorted (· ≤ ·) :=
    List.sorted_insertionSort _ xs
  have hlen : (xs.insertionSort (· ≤ ·)).length = xs.length :=
    (List.perm_insertionSort _ xs).length_eq
  have hn : 0 < xs.length := List.length_pos.mpr hne
  have hn1 : (1:ℝ) ≤ (xs.length : ℝ) := by exact_mod_cast hn
  have hne' : xs.insertionSort (· ≤ ·) ≠ [] := by
    intro hcon
    rw [hcon] at hlen
    exact absurd hlen.symm (by simpa using hn.ne')
  apply interpAt_mono _ hsorted hne'
  · exact mul_nonneg (by linarith) (by linarith)
  · exact mul_le_mul_of_nonneg_right (by linarith) (by linarith)
  · rw [hlen]
    nlinarith [mul_nonneg (show (0:ℝ) ≤ 1 - q2 / 100 by linarith)
      (show (0:ℝ) ≤ (xs.length : ℝ) - 1 by linarith)]

/-- Source line 113: `confidence_level = 0.99`. -/
noncomputable def confidence_level : ℝ := 0.99

/-- Source line 114: `lower_percentile = (1 - confidence_level) / 2`. -/
noncomputable def lower_percentile : ℝ := (1 - confidence_level) / 2

/-- Source line 115: `upper_percentile = 1 - lower_percentile`. -/
noncomputable def upper_percentile : ℝ := 1 - lower_percentile

/-- Source line 117: `lower_bound = np.percentile(predicted_prices,
lower_percentile * 100)`. -/
noncomputable def lower_bound (predicted_prices : List ℝ) : ℝ :=
  np_percentile predicted_prices (lower_percentile * 100)

/-- Source line 118: `upper_bound = np.percentile(predicted_prices,
upper_percentile * 100)`. -/
noncomputable def upper_bound (predicted_prices : List ℝ) : ℝ :=
  np_percentile predicted_prices (upper_percentile * 100)

/-- Source line 103: `simulated_returns = monte_carlo_simulation(model_fit)`,
the call that uses the default keyword arguments. -/
noncomputable def main_simulated_returns (p : Params) (last_vol : ℝ)
    (rng : ℕ → ℝ) : List (List ℝ) :=
  monte_carlo_simulation p last_vol rng default_n_simulations default_forecast_period

/-- C7: the default configuration is `n_simulations = 10000` and
`forecast_period = 21` (and `main` simulates with exactly those defaults);
the reporting stage uses `confidence_level = 0.99`, placing the two-sided
bounds at the 0.5th and 99.5th percentiles of the predicted prices, and for
every non-empty collection of predicted prices the resulting bounds satisfy
`lower_bound <= upper_bound`. -/
theorem defaults_and_confidence_bounds :
    (default_n_simulations = 10000 ∧ default_forecast_period = 21
      ∧ ∀ (p : Params) (last_vol : ℝ) (rng : ℕ → ℝ),
          main_simulated_returns p last_vol rng
            = monte_carlo_simulation p last_vol rng 10000 21)
    ∧ (confidence_level = 0.99
      ∧ lower_percentile * 100 = 0.5 ∧ upper_percentile * 100 = 99.5)
    ∧ (∀ predicted_prices : List ℝ, predicted_prices ≠ [] →
        lower_bound predicted_prices ≤ upper_bound predicted_prices) := by
  refine ⟨⟨rfl, rfl, fun p v rng => rfl⟩,
    ⟨rfl, by norm_num [lower_percentile, confidence_level],
      by norm_num [upper_percentile, lower_percentile, confidence_level]⟩, ?_⟩
  intro prices hne
  unfold lower_bound upper_bound
  apply np_percentile_ordered prices hne
  · norm_num [lower_percentile, confidence_level]
  · norm_num [upper_percentile, lower_percentile, confidence_level]
  · norm_num [upper_percentile, lower_percentile, confidence_level]

/-- Witness for C7 at a concrete input: the bounds are ordered on the
one-element price collection `[1]`. -/
theorem defaults_and_confidence_bounds_witness :
    lower_bound [(1:ℝ)] ≤ upper_bound [(1:ℝ)] :=
  defaults_and_confidence_bounds.2.2 [(1:ℝ)] (by simp)
